import Mathlib

/-!
Verification of the distributed sample sort in hpat/hiframes_sort.py.

The embedding models the numeric-array path of the sort pipeline:
the sampler, the bounds coordinator, the partition router, the
all-to-all shuffle, and the orchestrator decision, following the
source line by line.  Keys are modelled as integers, data columns as
lists of an arbitrary element type; machine arrays become Lean lists.
-/

namespace HiframesSort

open scoped List

/-- Source line 18: global sample budget constant. -/
def MIN_SAMPLES : ℕ := 1000000

/-- Source line 20: per-worker sampling hint constant. -/
def samplePointsPerPartitionHint : ℕ := 20

/-- Source line 287: sampleSize = min(samplePointsPerPartitionHint * n_pes, MIN_SAMPLES). -/
def sampleSize (n_pes : ℕ) : ℕ := min (samplePointsPerPartitionHint * n_pes) MIN_SAMPLES

/-- Source line 289: fraction = min(sampleSize / max(n_total, 1), 1.0); exact
rational arithmetic stands in for Python float arithmetic. -/
def fraction (n_pes n_total : ℕ) : ℚ :=
  min ((sampleSize n_pes : ℚ) / ((max n_total 1 : ℕ) : ℚ)) 1

/-- Source line 290: n_loc_samples = min(math.ceil(fraction * n_local), n_local). -/
def n_loc_samples (n_pes n_total n_local : ℕ) : ℕ :=
  min (Int.toNat ⌈fraction n_pes n_total * (n_local : ℚ)⌉) n_local

/-- Source lines 291-292: samples = key_arr[inds]; the random index vector is a
parameter (injectable random source), each index must be below n_local. -/
def sampleOf (keys : List ℤ) (inds : List ℕ) : List ℤ := inds.map (fun i => keys.getD i 0)

/-- Admissible random draw for one worker: the index vector has exactly the
length the sampler computes (source lines 290-291) and every index is in range. -/
def validSample (n_pes n_total : ℕ) (keys : List ℤ) (inds : List ℕ) : Prop :=
  inds.length = n_loc_samples n_pes n_total keys.length ∧ ∀ i ∈ inds, i < keys.length

/-- Python/NumPy indexing with possibly negative index: a negative index counts
from the end, any index outside [-len, len) is an error (modelled as none). -/
def pyIndex (l : List ℤ) (i : ℤ) : Option ℤ :=
  if i < 0 then
    if 0 ≤ i + l.length then l.get? (i + (l.length : ℤ)).toNat else none
  else l.get? i.toNat

/-- Sequences a list of optional values; none if any element is none. -/
def optJoin : List (Option α) → Option (List α)
  | [] => some []
  | none :: _ => none
  | some x :: rest => (optJoin rest).map (x :: ·)

/-- Source line 300: the root sorts the gathered samples ascending. -/
def sortedSamples (all_samples : List ℤ) : List ℤ := all_samples.insertionSort (· ≤ ·)

/-- Source line 302: step = math.ceil(n_samples / n_pes), exact for integers. -/
def boundsStep (n_pes n_samples : ℕ) : ℕ := (n_samples + n_pes - 1) / n_pes

/-- Source lines 297-304: the root picks n_pes - 1 cut values,
bounds[i] = all_samples_sorted[min((i + 1) * step, n_samples - 1)], where the
subtraction n_samples - 1 is Python integer subtraction (can be -1). -/
def computeBounds (n_pes : ℕ) (all_samples : List ℤ) : Option (List ℤ) :=
  let sorted := sortedSamples all_samples
  let n := all_samples.length
  let step := boundsStep n_pes n
  optJoin ((List.range (n_pes - 1)).map (fun (i : ℕ) =>
    pyIndex sorted (min ((((i : ℕ) : ℤ) + 1) * (step : ℤ)) ((n : ℤ) - 1))))

/-- Source line 309: broadcast hands every one of the n_pes workers the root's
boundary list. -/
def bcast (n_pes : ℕ) (b : List ℤ) : List (List ℤ) := List.replicate n_pes b

/-- Source lines 313-317: the routing loop.  node_id starts at 0 and advances by
at most one per row: if node_id < n_pes - 1 (that is, below the number of
boundaries) and key_arr[i] >= bounds[node_id], node_id is incremented; the row
is then counted toward the current node_id.  The emitted list holds one
destination per row in row order. -/
def advance (bounds : List ℤ) (node_id : ℕ) (k : ℤ) : ℕ :=
  if node_id < bounds.length ∧ bounds.getD node_id 0 ≤ k then node_id + 1 else node_id

/-- Body of the routing loop, one destination per remaining row. -/
def routeScanAux (bounds : List ℤ) : ℕ → List ℤ → List ℕ
  | _, [] => []
  | node_id, k :: ks =>
    advance bounds node_id k :: routeScanAux bounds (advance bounds node_id k) ks

/-- Destination sequence of the routing loop, started at node_id = 0. -/
def routeScan (bounds : List ℤ) (keys : List ℤ) : List ℕ := routeScanAux bounds 0 keys

/-- Source lines 347-349 and 372: send_counts[d] counts the rows routed to d
(update_shuffle_meta increments send_counts[node_id] once per row). -/
def send_counts (n_pes : ℕ) (bounds : List ℤ) (keys : List ℤ) : List ℕ :=
  (List.range n_pes).map (fun d => (routeScan bounds keys).count d)

/-- Destination the specification demands for one key: the number of boundaries
less than or equal to the key (upper-bound search), independent of row order. -/
def specDest (bounds : List ℤ) (x : ℤ) : ℕ := bounds.countP (fun b => decide (b ≤ x))

/-- Contiguous slices of an array according to a count vector: block d starts at
the exclusive prefix sum of the counts before d (the displacement of source
lines 388-389) and holds counts[d] elements. -/
def slices : List α → List ℕ → List (List α)
  | _, [] => []
  | l, c :: cs => l.take c :: slices (l.drop c) cs

/-- Exclusive prefix-sum displacement of a count vector (hiframes_join.calc_disp). -/
def sendDisp (counts : List ℕ) (d : ℕ) : ℕ := (counts.take d).sum

/-- Receive buffer of worker d: the blocks destined to d from every source
worker, concatenated in source-rank order (source lines 399-402, with the raw
local array as send buffer sliced by send_counts/send_disp). -/
def recvBuf (countss : List (List ℕ)) (arrs : List (List α)) (d : ℕ) : List α :=
  (List.zipWith (fun cs a => (slices a cs).getD d []) countss arrs).flatten

/-- One variable-size all-to-all over every worker: worker d receives
recvBuf countss arrs d. -/
def alltoallv_run (n_pes : ℕ) (countss : List (List ℕ)) (arrs : List (List α)) :
    List (List α) :=
  (List.range n_pes).map (fun d => recvBuf countss arrs d)

/-- Source lines 279-327 (numeric path), all workers at once: gather samples,
compute and broadcast bounds, route, and shuffle the key array and the data
columns with the identical counts and displacements.  Worker w holds keys
keyss[w], one data column datass[w], and draws sample indices indss[w].
Returns none when the bounds computation indexes out of range. -/
def parallel_sort (n_pes : ℕ) (keyss : List (List ℤ)) (datass : List (List α))
    (indss : List (List ℕ)) : Option (List (List ℤ) × List (List α)) :=
  let all_samples := ((keyss.zip indss).map (fun p => sampleOf p.1 p.2)).flatten
  match computeBounds n_pes all_samples with
  | none => none
  | some bounds =>
    let countss := keyss.map (fun k => send_counts n_pes bounds k)
    some (alltoallv_run n_pes countss keyss, alltoallv_run n_pes countss datass)

/-- Modelled from the spec: hpat/timsort.py (the Local Sort Engine) is not under
src/; per spec section 4.5 it is a stable ascending sort of the key sequence
that carries every data column through the identical moves, modelled as a
stable insertion sort on (key, data) rows ordered by key. -/
def local_sort (l : List (ℤ × α)) : List (ℤ × α) :=
  l.insertionSort (fun a b => a.1 ≤ b.1)

/-- Source lines 250-260: the parallel sort call; after parallel_sort each
worker sorts its received keys carrying the received data columns. -/
def par_sort_impl (n_pes : ℕ) (keyss : List (List ℤ)) (datass : List (List α))
    (indss : List (List ℕ)) : Option (List (List (ℤ × α))) :=
  match parallel_sort n_pes keyss datass indss with
  | none => none
  | some (outK, outD) => some ((outK.zip outD).map (fun p => local_sort (p.1.zip p.2)))

/-- Modelled from the spec: the Distribution enumeration lives in
hpat/distributed_analysis.py which is not under src/; spec section 3 lists the
three classifications (replicated, variably partitioned, fully partitioned)
with replicated the weakest. -/
inductive Distribution
  | REP
  | OneD_Var
  | OneD
  deriving DecidableEq

/-- Numeric value of a classification; replicated is smallest so the minimum
over values is the weakest common classification. -/
def Distribution.value : Distribution → ℕ
  | .REP => 1
  | .OneD_Var => 4
  | .OneD => 5

/-- Source lines 68-69: Distribution(min(a.value, b.value)); value is injective
so this is the value-minimum of the two classifications. -/
def minDist (a b : Distribution) : Distribution := if a.value ≤ b.value then a else b

/-- Source lines 63-75: the common classification of the key array and every
data column. -/
def commonDist (key_dist : Distribution) (col_dists : List Distribution) : Distribution :=
  col_dists.foldl minDist key_dist

/-- Source lines 172-178: parallel stays true only when every array is OneD or
OneD_Var distributed. -/
def is_parallel (dists : List Distribution) : Bool :=
  dists.all (fun d => decide (d = Distribution.OneD ∨ d = Distribution.OneD_Var))

/-- The two terminal paths of the orchestrator (source lines 225-272). -/
inductive SortPath
  | localSortOnly
  | shufflePipeline
  deriving DecidableEq

/-- Source lines 172-272: the orchestrator emits the local-sort-only body when
some array is neither OneD nor OneD_Var, otherwise the full parallel pipeline. -/
def sort_distributed_run (key_dist : Distribution) (col_dists : List Distribution) : SortPath :=
  if is_parallel (key_dist :: col_dists) then .shufflePipeline else .localSortOnly

/-- Collective invocations on each path: the local-sort body (lines 199-209)
calls no distributed_api primitive; parallel_sort calls dist_reduce, gatherv,
bcast, alltoall, alltoallv and alltoallv_tup (lines 281-325). -/
def collective_calls : SortPath → ℕ
  | .localSortOnly => 0
  | .shufflePipeline => 6


/-! Helper lemmas about the routing loop. -/

lemma advance_ge (bounds : List ℤ) (nid : ℕ) (k : ℤ) : nid ≤ advance bounds nid k := by
  unfold advance; split <;> omega

lemma advance_le (bounds : List ℤ) (nid : ℕ) (k : ℤ) (h : nid ≤ bounds.length) :
    advance bounds nid k ≤ bounds.length := by
  unfold advance; split <;> omega

lemma routeScanAux_length (bounds : List ℤ) (nid : ℕ) (ks : List ℤ) :
    (routeScanAux bounds nid ks).length = ks.length := by
  induction ks generalizing nid with
  | nil => rfl
  | cons k ks ih => simp [routeScanAux, ih]

lemma routeScanAux_le (bounds : List ℤ) (nid : ℕ) (ks : List ℤ) (h : nid ≤ bounds.length) :
    ∀ d ∈ routeScanAux bounds nid ks, d ≤ bounds.length := by
  induction ks generalizing nid with
  | nil => simp [routeScanAux]
  | cons k ks ih =>
    intro d hd
    rw [routeScanAux, List.mem_cons] at hd
    rcases hd with rfl | hd
    · exact advance_le bounds nid k h
    · exact ih (advance bounds nid k) (advance_le bounds nid k h) d hd

lemma routeScanAux_chain (bounds : List ℤ) (nid : ℕ) (ks : List ℤ) :
    List.Chain (· ≤ ·) nid (routeScanAux bounds nid ks) := by
  induction ks generalizing nid with
  | nil => exact List.Chain.nil
  | cons k ks ih => exact List.Chain.cons (advance_ge bounds nid k) (ih _)

lemma routeScan_pairwise (bounds : List ℤ) (keys : List ℤ) :
    List.Pairwise (· ≤ ·) (routeScan bounds keys) := by
  have h := routeScanAux_chain bounds 0 keys
  rw [List.chain_iff_pairwise] at h
  exact h.of_cons

lemma sum_map_add {γ : Type} (L : List γ) (f g : γ → ℕ) :
    (L.map (fun a => f a + g a)).sum = (L.map f).sum + (L.map g).sum := by
  induction L with
  | nil => rfl
  | cons x L ih => simp [ih]; omega

lemma sum_indicator_range_of_ge (n x : ℕ) (hx : n ≤ x) :
    ((List.range n).map (fun d => if x = d then 1 else 0)).sum = 0 := by
  induction n with
  | zero => rfl
  | succ n ih =>
    rw [List.range_succ, List.map_append, List.sum_append]
    have h1 : ((List.range n).map (fun d => if x = d then 1 else 0)).sum = 0 := ih (by omega)
    have h2 : x ≠ n := by omega
    simp [h1, h2]

lemma sum_indicator_range (n x : ℕ) (hx : x < n) :
    ((List.range n).map (fun d => if x = d then 1 else 0)).sum = 1 := by
  induction n with
  | zero => omega
  | succ n ih =>
    rw [List.range_succ, List.map_append, List.sum_append]
    by_cases h : x < n
    · simp [ih h, show x ≠ n by omega]
    · have hxn : x = n := by omega
      subst hxn
      simp [sum_indicator_range_of_ge x x (le_refl x)]

lemma sum_count_range (l : List ℕ) (n : ℕ) (h : ∀ x ∈ l, x < n) :
    ((List.range n).map (fun d => l.count d)).sum = l.length := by
  induction l with
  | nil => simp
  | cons x l ih =>
    have hx : x < n := h x (by simp)
    have hrest : ∀ y ∈ l, y < n := fun y hy => h y (by simp [hy])
    have hc : ∀ d : ℕ, (x :: l).count d = l.count d + if x = d then 1 else 0 := by
      intro d
      rw [List.count_cons]
      simp
    calc ((List.range n).map (fun d => (x :: l).count d)).sum
        = ((List.range n).map (fun d => l.count d + if x = d then 1 else 0)).sum := by
          simp only [hc]
      _ = ((List.range n).map (fun d => l.count d)).sum
            + ((List.range n).map (fun d => if x = d then 1 else 0)).sum :=
          sum_map_add _ _ _
      _ = l.length + 1 := by rw [ih hrest, sum_indicator_range n x hx]
      _ = (x :: l).length := by simp

lemma pairwise_le_getD {α : Type} [Preorder α] (l : List α) (e : α)
    (h : List.Pairwise (· ≤ ·) l) (i j : ℕ) (hij : i ≤ j) (hj : j < l.length) :
    l.getD i e ≤ l.getD j e := by
  rcases Nat.eq_or_lt_of_le hij with rfl | hlt
  · exact le_refl _
  · have hi : i < l.length := lt_trans hlt hj
    rw [List.getD_eq_getElem l e hi, List.getD_eq_getElem l e hj]
    have := List.pairwise_iff_get.mp h ⟨i, hi⟩ ⟨j, hj⟩ hlt
    simpa using this

/-! Claim theorems: the partition router. -/

/-- C1: the claim says the router gives every key the destination equal to the
number of boundaries less than or equal to it, independent of row position.
The code's forward-only scan (source lines 313-317) contradicts this: with
boundary list [5] and local keys [9, 1], row 1 holds key 1, whose
boundary-count destination is 0, yet the scan leaves node_id at 1 and routes
it to worker 1. -/
theorem C1_route_divergence :
    routeScan [5] [9, 1] = [1, 1] ∧ specDest [5] (1 : ℤ) = 0 ∧ specDest [5] (9 : ℤ) = 1 := by
  decide

/-- C5: the claim says zero gathered samples give an empty boundary sequence and
an error-free call.  In the code the root still fills n_pes - 1 boundary slots
and, with totalSamples = 0, reads all_samples[min(step, -1)], an out-of-range
index of the empty sample array (source lines 297-304): with two workers the
bounds computation faults (modelled as none), while a single worker skips the
loop entirely and yields the empty boundary list. -/
theorem C5_empty_samples_divergence :
    computeBounds 2 [] = none ∧ computeBounds 1 [] = some [] := by
  decide

/-- C6: the sampler's local sample count min(ceil(fraction * n_local), n_local)
(source lines 287-290) always lies within [0, n_local], and an empty local
partition yields an empty sample. -/
theorem C6_sampler_bounds (n_pes n_total n_local : ℕ) :
    n_loc_samples n_pes n_total n_local ≤ n_local ∧
    (n_local = 0 → n_loc_samples n_pes n_total n_local = 0) := by
  refine ⟨min_le_right _ _, fun h => ?_⟩
  simp [h, n_loc_samples]

/-- Witness for C6 at n_pes = 2, n_total = 3, n_local = 0. -/
theorem C6_sampler_bounds_witness :
    n_loc_samples 2 3 0 ≤ 0 ∧ (0 = 0 → n_loc_samples 2 3 0 = 0) :=
  C6_sampler_bounds 2 3 0

/-- C9: over any boundary list of length n_pes - 1 (as built on source line
297), the routing loop emits exactly one destination per local row, every
destination lies in [0, n_pes), the final send_counts vector sums to n_local,
and with a single worker every row is counted toward destination 0. -/
theorem C9_route_counts (n_pes : ℕ) (bounds : List ℤ) (keys : List ℤ)
    (h : bounds.length + 1 = n_pes) :
    (routeScan bounds keys).length = keys.length ∧
    (∀ d ∈ routeScan bounds keys, d < n_pes) ∧
    (send_counts n_pes bounds keys).sum = keys.length ∧
    (n_pes = 1 → ∀ d ∈ routeScan bounds keys, d = 0) := by
  have hlen : (routeScan bounds keys).length = keys.length :=
    routeScanAux_length bounds 0 keys
  have hmem : ∀ d ∈ routeScan bounds keys, d < n_pes := by
    intro d hd
    have := routeScanAux_le bounds 0 keys (Nat.zero_le _) d hd
    omega
  refine ⟨hlen, hmem, ?_, ?_⟩
  · rw [send_counts, sum_count_range _ _ hmem, hlen]
  · intro h1 d hd
    have := hmem d hd
    omega

/-- Witness for C9 with two workers, boundary list [5], local keys [9, 1]. -/
theorem C9_route_counts_witness :
    (routeScan [5] [9, 1]).length = ([9, 1] : List ℤ).length ∧
    (∀ d ∈ routeScan [5] [9, 1], d < 2) ∧
    (send_counts 2 [5] [9, 1]).sum = ([9, 1] : List ℤ).length ∧
    (2 = 1 → ∀ d ∈ routeScan [5] [9, 1], d = 0) :=
  C9_route_counts 2 [5] [9, 1] rfl

/-- C10: the destination sequence the routing scan produces is non-decreasing in
row order (node_id only ever advances), so the rows of each destination form
one contiguous block: any row lying between two rows routed to d is itself
routed to d. -/
theorem C10_route_monotone (bounds : List ℤ) (keys : List ℤ) :
    List.Pairwise (· ≤ ·) (routeScan bounds keys) ∧
    ∀ d i j k, i ≤ j → j ≤ k → k < (routeScan bounds keys).length →
      (routeScan bounds keys).getD i 0 = d → (routeScan bounds keys).getD k 0 = d →
      (routeScan bounds keys).getD j 0 = d := by
  have hp := routeScan_pairwise bounds keys
  refine ⟨hp, ?_⟩
  intro d i j k hij hjk hk hi hk2
  have h1 : (routeScan bounds keys).getD i 0 ≤ (routeScan bounds keys).getD j 0 :=
    pairwise_le_getD _ 0 hp i j hij (by omega)
  have h2 : (routeScan bounds keys).getD j 0 ≤ (routeScan bounds keys).getD k 0 :=
    pairwise_le_getD _ 0 hp j k hjk hk
  omega

/-- Witness for C10 with boundary list [5] and keys [9, 1]. -/
theorem C10_route_monotone_witness :
    List.Pairwise (· ≤ ·) (routeScan [5] [9, 1]) ∧
    (routeScan [5] [9, 1]).getD 1 0 = 1 :=
  ⟨(C10_route_monotone [5] [9, 1]).1,
   (C10_route_monotone [5] [9, 1]).2 1 0 1 1 (by omega) (by omega) (by decide)
     (by decide) (by decide)⟩

/-! Helper lemmas about the bounds computation. -/

lemma optJoin_map_some {β γ : Type} (l : List β) (f : β → Option γ) (g : β → γ)
    (h : ∀ x ∈ l, f x = some (g x)) : optJoin (l.map f) = some (l.map g) := by
  induction l with
  | nil => rfl
  | cons x l ih =>
    rw [List.map_cons, List.map_cons, h x (by simp)]
    rw [optJoin, ih (fun y hy => h y (by simp [hy]))]
    rfl

lemma pyIndex_of_nonneg (l : List ℤ) (i : ℤ) (h0 : 0 ≤ i) (hl : i < l.length) :
    pyIndex l i = some (l.getD i.toNat 0) := by
  rw [pyIndex, if_neg (by omega)]
  have hn : i.toNat < l.length := by omega
  rw [List.get?_eq_get hn, List.getD_eq_getElem l 0 hn]
  simp [List.get_eq_getElem]

lemma length_sortedSamples (l : List ℤ) : (sortedSamples l).length = l.length :=
  (List.perm_insertionSort _ l).length_eq

lemma sortedSamples_pairwise (l : List ℤ) :
    List.Pairwise (· ≤ ·) (sortedSamples l) :=
  List.sorted_insertionSort _ l

lemma computeBounds_eq_some (n_pes : ℕ) (all : List ℤ) (hs : 0 < all.length) :
    computeBounds n_pes all = some ((List.range (n_pes - 1)).map (fun i =>
      (sortedSamples all).getD
        (min ((i + 1) * boundsStep n_pes all.length) (all.length - 1)) 0)) := by
  rw [computeBounds]
  refine optJoin_map_some _ _ _ ?_
  intro i hi
  have hlen : (sortedSamples all).length = all.length := length_sortedSamples all
  have hcast : ((i : ℤ) + 1) * ((boundsStep n_pes all.length : ℕ) : ℤ)
      = (((i + 1) * boundsStep n_pes all.length : ℕ) : ℤ) := by push_cast; ring
  rw [hcast]
  have h0 : (0:ℤ) ≤ min (((i + 1) * boundsStep n_pes all.length : ℕ) : ℤ) ((all.length : ℤ) - 1) := by
    omega
  have h1 : min (((i + 1) * boundsStep n_pes all.length : ℕ) : ℤ) ((all.length : ℤ) - 1)
      < (sortedSamples all).length := by
    rw [hlen]; omega
  rw [pyIndex_of_nonneg _ _ h0 h1]
  have hidx : (min (((i + 1) * boundsStep n_pes all.length : ℕ) : ℤ)
        ((all.length : ℤ) - 1)).toNat
      = min ((i + 1) * boundsStep n_pes all.length) (all.length - 1) := by
    omega
  rw [hidx]

lemma getD_map_range {β : Type} (f : ℕ → β) (n d : ℕ) (e : β) (hd : d < n) :
    ((List.range n).map f).getD d e = f d := by
  rw [List.getD_eq_getElem _ e (by simpa using hd)]
  simp

/-! Claim theorems: the bounds coordinator. -/

/-- C7: with at least one gathered sample, the root emits exactly n_pes - 1 cut
values, cut i being the sorted sample at index min((i+1)*step, n_samples - 1)
with step = ceil(n_samples / n_pes) (source lines 299-304); the sequence is
non-decreasing and broadcast leaves every worker with the identical list. -/
theorem C7_bounds_spec (n_pes : ℕ) (all_samples : List ℤ)
    (hp : 1 ≤ n_pes) (hs : 0 < all_samples.length) :
    ∃ bounds, computeBounds n_pes all_samples = some bounds ∧
      bounds.length = n_pes - 1 ∧
      (∀ i, i < n_pes - 1 → bounds.getD i 0 =
        (sortedSamples all_samples).getD
          (min ((i + 1) * boundsStep n_pes all_samples.length) (all_samples.length - 1)) 0) ∧
      List.Pairwise (· ≤ ·) bounds ∧
      ∀ w ∈ bcast n_pes bounds, w = bounds := by
  refine ⟨_, computeBounds_eq_some n_pes all_samples hs, by simp, ?_, ?_, ?_⟩
  · intro i hi
    exact getD_map_range _ _ _ _ hi
  · rw [List.pairwise_map]
    refine (List.pairwise_lt_range (n_pes - 1)).imp ?_
    intro i j hij
    refine pairwise_le_getD _ 0 (sortedSamples_pairwise all_samples) _ _ ?_ ?_
    · exact min_le_min (Nat.mul_le_mul_right _ (by omega)) le_rfl
    · rw [length_sortedSamples]
      omega
  · intro w hw
    exact List.eq_of_mem_replicate hw

/-- Witness for C7 with two workers and gathered samples [9, 1, 4]. -/
theorem C7_bounds_spec_witness :
    ∃ bounds, computeBounds 2 [9, 1, 4] = some bounds ∧
      bounds.length = 2 - 1 ∧
      (∀ i, i < 2 - 1 → bounds.getD i 0 =
        (sortedSamples [9, 1, 4]).getD
          (min ((i + 1) * boundsStep 2 ([9, 1, 4] : List ℤ).length)
            (([9, 1, 4] : List ℤ).length - 1)) 0) ∧
      List.Pairwise (· ≤ ·) bounds ∧
      ∀ w ∈ bcast 2 bounds, w = bounds :=
  C7_bounds_spec 2 [9, 1, 4] (by omega) (by decide)

/-! Helper lemmas about the orchestrator decision. -/

lemma minDist_eq_REP (a b : Distribution) :
    minDist a b = Distribution.REP ↔ (a = Distribution.REP ∨ b = Distribution.REP) := by
  cases a <;> cases b <;> decide

lemma commonDist_eq_REP (k : Distribution) (cols : List Distribution) :
    commonDist k cols = Distribution.REP ↔
      (k = Distribution.REP ∨ Distribution.REP ∈ cols) := by
  induction cols generalizing k with
  | nil => simp [commonDist]
  | cons c cols ih =>
    rw [commonDist, List.foldl_cons]
    have := ih (minDist k c)
    rw [commonDist] at this
    rw [this, minDist_eq_REP]
    simp [List.mem_cons]
    tauto

lemma not_parallel_iff (dists : List Distribution) :
    is_parallel dists = false ↔ Distribution.REP ∈ dists := by
  rw [is_parallel, List.all_eq_false]
  constructor
  · rintro ⟨x, hx, hpx⟩
    cases x
    · exact hx
    · exact absurd (by decide) hpx
    · exact absurd (by decide) hpx
  · intro h
    exact ⟨Distribution.REP, h, by decide⟩

/-! Claim theorem: the orchestrator. -/

/-- C8: when the weakest common classification of the key array and every data
column is replicated, the orchestrator emits the local-sort-only body, which
invokes no collective; otherwise (all arrays OneD or OneD_Var) it emits the
full shuffle pipeline (source lines 172-272). -/
theorem C8_orchestrator (key_dist : Distribution) (col_dists : List Distribution) :
    (commonDist key_dist col_dists = Distribution.REP →
      sort_distributed_run key_dist col_dists = SortPath.localSortOnly ∧
      collective_calls (sort_distributed_run key_dist col_dists) = 0) ∧
    (commonDist key_dist col_dists ≠ Distribution.REP →
      sort_distributed_run key_dist col_dists = SortPath.shufflePipeline ∧
      0 < collective_calls (sort_distributed_run key_dist col_dists)) := by
  have hiff : commonDist key_dist col_dists = Distribution.REP ↔
      is_parallel (key_dist :: col_dists) = false := by
    rw [commonDist_eq_REP, not_parallel_iff]
    simp [List.mem_cons, eq_comm]
  constructor
  · intro h
    have hf := hiff.mp h
    simp [sort_distributed_run, hf, collective_calls]
  · intro h
    have hf : is_parallel (key_dist :: col_dists) = true := by
      rcases Bool.eq_false_or_eq_true (is_parallel (key_dist :: col_dists)) with h1 | h1
      · exact h1
      · exact absurd (hiff.mpr h1) h
    simp [sort_distributed_run, hf, collective_calls]

/-- Witness for C8: an all-replicated call takes the local path with zero
collectives; a partitioned call takes the pipeline. -/
theorem C8_orchestrator_witness :
    (sort_distributed_run Distribution.REP [Distribution.REP] = SortPath.localSortOnly ∧
      collective_calls (sort_distributed_run Distribution.REP [Distribution.REP]) = 0) ∧
    (sort_distributed_run Distribution.OneD [Distribution.OneD_Var] = SortPath.shufflePipeline ∧
      0 < collective_calls (sort_distributed_run Distribution.OneD [Distribution.OneD_Var])) :=
  ⟨(C8_orchestrator Distribution.REP [Distribution.REP]).1 (by decide),
   (C8_orchestrator Distribution.OneD [Distribution.OneD_Var]).2 (by decide)⟩

/-! Helper lemmas about the shuffle exchange. -/

lemma routeScan_lt (n_pes : ℕ) (bounds : List ℤ) (keys : List ℤ)
    (hb : bounds.length + 1 = n_pes) :
    ∀ d ∈ routeScan bounds keys, d < n_pes := by
  intro d hd
  have := routeScanAux_le bounds 0 keys (Nat.zero_le _) d hd
  omega

lemma send_counts_sum (n_pes : ℕ) (bounds : List ℤ) (keys : List ℤ)
    (hb : bounds.length + 1 = n_pes) :
    (send_counts n_pes bounds keys).sum = keys.length := by
  rw [send_counts, sum_count_range _ _ (routeScan_lt n_pes bounds keys hb)]
  exact routeScanAux_length bounds 0 keys

lemma slices_length {α : Type} (cs : List ℕ) (l : List α) :
    (slices l cs).length = cs.length := by
  induction cs generalizing l with
  | nil => rfl
  | cons c cs ih => simp [slices, ih]

lemma flatten_slices {α : Type} (cs : List ℕ) (l : List α) :
    (slices l cs).flatten = l.take cs.sum := by
  induction cs generalizing l with
  | nil => simp [slices]
  | cons c cs ih =>
    rw [slices, List.flatten_cons, ih (l.drop c), List.sum_cons, List.take_add]

lemma flatten_slices_of_sum_eq {α : Type} (cs : List ℕ) (l : List α)
    (h : cs.sum = l.length) : (slices l cs).flatten = l := by
  rw [flatten_slices, h, List.take_length]

lemma map_getD_range {α : Type} (L : List (List α)) :
    (List.range L.length).map (fun d => L.getD d []) = L := by
  induction L with
  | nil => rfl
  | cons x L ih =>
    rw [List.length_cons, List.range_succ_eq_map, List.map_cons, List.map_map]
    have h2 : ((fun d => (x :: L).getD d []) ∘ Nat.succ) = fun d => L.getD d [] := by
      funext d
      simp
    rw [h2, ih]
    simp

lemma flatten_map_append_perm {γ α : Type} (L : List γ) (f g : γ → List α) :
    (L.map (fun d => f d ++ g d)).flatten ~ (L.map f).flatten ++ (L.map g).flatten := by
  induction L with
  | nil => exact List.Perm.refl _
  | cons d L ih =>
    simp only [List.map_cons, List.flatten_cons]
    calc (f d ++ g d) ++ (L.map (fun x => f x ++ g x)).flatten
        ~ (f d ++ g d) ++ ((L.map f).flatten ++ (L.map g).flatten) := ih.append_left _
      _ = f d ++ ((g d ++ (L.map f).flatten) ++ (L.map g).flatten) := by
          simp [List.append_assoc]
      _ ~ f d ++ (((L.map f).flatten ++ g d) ++ (L.map g).flatten) :=
          ((List.perm_append_comm.append_right _).append_left _)
      _ = (f d ++ (L.map f).flatten) ++ (g d ++ (L.map g).flatten) := by
          simp [List.append_assoc]

lemma recvBuf_cons {α : Type} (cs : List ℕ) (css : List (List ℕ)) (a : List α)
    (ars : List (List α)) (d : ℕ) :
    recvBuf (cs :: css) (a :: ars) d = (slices a cs).getD d [] ++ recvBuf css ars d := rfl

lemma recv_perm {α : Type} (n : ℕ) (countss : List (List ℕ)) (arrs : List (List α))
    (hcs : List.Forall₂ (fun cs a => cs.length = n ∧ cs.sum = a.length) countss arrs) :
    ((List.range n).map (fun d => recvBuf countss arrs d)).flatten ~ arrs.flatten := by
  induction hcs with
  | nil => simp [recvBuf]
  | @cons cs a css ars hca hrest ih =>
    simp only [recvBuf_cons]
    refine (flatten_map_append_perm _ _ _).trans ?_
    rw [List.flatten_cons]
    refine List.Perm.append ?_ ih
    have hlen : (slices a cs).length = n := by rw [slices_length]; exact hca.1
    rw [← hlen, map_getD_range, flatten_slices_of_sum_eq _ _ hca.2]

lemma take_zip {α β : Type} (a : List α) (b : List β) (n : ℕ) :
    (a.zip b).take n = (a.take n).zip (b.take n) := by
  induction a generalizing b n with
  | nil => simp
  | cons x a ih =>
    cases b with
    | nil => simp
    | cons y b =>
      cases n with
      | zero => simp
      | succ n => simp [ih]

lemma drop_zip {α β : Type} (a : List α) (b : List β) (n : ℕ) :
    (a.zip b).drop n = (a.drop n).zip (b.drop n) := by
  induction a generalizing b n with
  | nil => simp
  | cons x a ih =>
    cases b with
    | nil => simp
    | cons y b =>
      cases n with
      | zero => simp
      | succ n => simp [ih]

lemma slices_zip {α β : Type} (cs : List ℕ) (a : List α) (b : List β) :
    slices (a.zip b) cs = List.zipWith List.zip (slices a cs) (slices b cs) := by
  induction cs generalizing a b with
  | nil => rfl
  | cons c cs ih => simp [slices, take_zip, drop_zip, ih]

lemma getD_zipWith_zip {α β : Type} (L : List (List α)) (M : List (List β)) (d : ℕ)
    (h : L.length = M.length) :
    (List.zipWith List.zip L M).getD d [] = (L.getD d []).zip (M.getD d []) := by
  induction L generalizing M d with
  | nil =>
    cases M with
    | nil => simp
    | cons y M => simp at h
  | cons x L ih =>
    cases M with
    | nil => simp at h
    | cons y M =>
      cases d with
      | zero => simp
      | succ d => simpa using ih M d (by simpa using h)

lemma slices_getD_length_eq {α β : Type} (cs : List ℕ) (a : List α) (b : List β) (d : ℕ)
    (h : a.length = b.length) :
    ((slices a cs).getD d []).length = ((slices b cs).getD d []).length := by
  induction cs generalizing a b d with
  | nil => simp [slices]
  | cons c cs ih =>
    cases d with
    | zero => simp [slices, h]
    | succ d =>
      simp only [slices, List.getD_cons_succ]
      exact ih (a.drop c) (b.drop c) d (by simp [h])

lemma recvBuf_zip {α β : Type} (countss : List (List ℕ)) (A : List (List α))
    (B : List (List β)) (d : ℕ)
    (hAB : List.Forall₂ (fun x y => x.length = y.length) A B) :
    (recvBuf countss A d).zip (recvBuf countss B d)
      = recvBuf countss (List.zipWith List.zip A B) d := by
  induction hAB generalizing countss with
  | nil => simp [recvBuf]
  | @cons x y A' B' hxy hrest ih =>
    cases countss with
    | nil => simp [recvBuf]
    | cons cs css =>
      rw [List.zipWith_cons_cons, recvBuf_cons, recvBuf_cons, recvBuf_cons,
        List.zip_append (slices_getD_length_eq cs x y d hxy), ih css]
      congr 1
      rw [slices_zip, getD_zipWith_zip _ _ _ (by rw [slices_length, slices_length])]

lemma recvBuf_length_eq {α β : Type} (countss : List (List ℕ)) (A : List (List α))
    (B : List (List β)) (d : ℕ)
    (hAB : List.Forall₂ (fun x y => x.length = y.length) A B) :
    (recvBuf countss A d).length = (recvBuf countss B d).length := by
  induction hAB generalizing countss with
  | nil => simp [recvBuf]
  | @cons x y A' B' hxy hrest ih =>
    cases countss with
    | nil => simp [recvBuf]
    | cons cs css =>
      rw [recvBuf_cons, recvBuf_cons, List.length_append, List.length_append,
        slices_getD_length_eq cs x y d hxy, ih css]

lemma mem_slices_getD {α : Type} (cs : List ℕ) (a : List α) (d : ℕ) (x : α)
    (hx : x ∈ (slices a cs).getD d []) : x ∈ a := by
  induction cs generalizing a d with
  | nil => simp [slices] at hx
  | cons c cs ih =>
    cases d with
    | zero =>
      simp only [slices, List.getD_cons_zero] at hx
      exact List.take_subset c a hx
    | succ d =>
      simp only [slices, List.getD_cons_succ] at hx
      exact List.drop_subset c a (ih (a.drop c) d hx)

lemma mem_recvBuf {α : Type} (countss : List (List ℕ)) (arrs : List (List α)) (d : ℕ)
    (x : α) (hx : x ∈ recvBuf countss arrs d) : x ∈ arrs.flatten := by
  induction countss generalizing arrs with
  | nil => simp [recvBuf] at hx
  | cons cs css ih =>
    cases arrs with
    | nil => simp [recvBuf, List.zipWith_nil_right] at hx
    | cons a ars =>
      rw [recvBuf_cons, List.mem_append] at hx
      rw [List.flatten_cons, List.mem_append]
      rcases hx with hx | hx
      · exact Or.inl (mem_slices_getD cs a d x hx)
      · exact Or.inr (ih ars hx)

lemma flatten_map_local_sort {α : Type} (L : List (List (ℤ × α))) :
    (L.map local_sort).flatten ~ L.flatten := by
  induction L with
  | nil => exact List.Perm.refl _
  | cons x L ih =>
    simp only [List.map_cons, List.flatten_cons]
    exact (List.perm_insertionSort _ x).append ih

lemma optJoin_length {β : Type} (l : List (Option β)) (xs : List β)
    (h : optJoin l = some xs) : xs.length = l.length := by
  induction l generalizing xs with
  | nil =>
    rw [optJoin] at h
    cases h
    rfl
  | cons o l ih =>
    cases o with
    | none => simp [optJoin] at h
    | some v =>
      rw [optJoin] at h
      cases hrec : optJoin l with
      | none => rw [hrec] at h; simp at h
      | some ys =>
        rw [hrec] at h
        have h2 : v :: ys = xs := by
          simpa using h
        rw [← h2]
        simp [ih ys hrec]

lemma computeBounds_length (n_pes : ℕ) (all : List ℤ) (bounds : List ℤ)
    (h : computeBounds n_pes all = some bounds) : bounds.length = n_pes - 1 := by
  rw [computeBounds] at h
  have := optJoin_length _ _ h
  simpa using this

lemma counts_forall₂ {α : Type} (n_pes : ℕ) (bounds : List ℤ)
    (hb : bounds.length + 1 = n_pes)
    (keyss : List (List ℤ)) (datass : List (List α))
    (hcols : List.Forall₂ (fun ks ds => ds.length = ks.length) keyss datass) :
    List.Forall₂ (fun cs a => cs.length = n_pes ∧ cs.sum = a.length)
      (keyss.map (fun k => send_counts n_pes bounds k))
      (List.zipWith List.zip keyss datass) := by
  induction hcols with
  | nil => exact List.Forall₂.nil
  | @cons ks ds keyss' datass' hxy hrest ih =>
    rw [List.map_cons, List.zipWith_cons_cons]
    refine List.Forall₂.cons ⟨?_, ?_⟩ ih
    · simp [send_counts]
    · rw [send_counts_sum n_pes bounds ks hb, List.length_zip, hxy]
      exact Eq.symm (min_self ks.length)

lemma parallel_sort_none {α : Type} (n_pes : ℕ) (keyss : List (List ℤ))
    (datass : List (List α)) (indss : List (List ℕ))
    (hb : computeBounds n_pes
        (((keyss.zip indss).map (fun p => sampleOf p.1 p.2)).flatten) = none) :
    parallel_sort n_pes keyss datass indss = none := by
  simp only [parallel_sort, hb]

lemma parallel_sort_eq {α : Type} (n_pes : ℕ) (keyss : List (List ℤ))
    (datass : List (List α)) (indss : List (List ℕ)) (bounds : List ℤ)
    (hb : computeBounds n_pes
        (((keyss.zip indss).map (fun p => sampleOf p.1 p.2)).flatten) = some bounds) :
    parallel_sort n_pes keyss datass indss =
      some (alltoallv_run n_pes (keyss.map (fun k => send_counts n_pes bounds k)) keyss,
            alltoallv_run n_pes (keyss.map (fun k => send_counts n_pes bounds k)) datass) := by
  simp only [parallel_sort, hb]

lemma forall₂_map_of_forall {β γ : Type} (f : ℕ → β) (g : ℕ → γ) (R : β → γ → Prop)
    (l : List ℕ) (h : ∀ d, R (f d) (g d)) :
    List.Forall₂ R (l.map f) (l.map g) := by
  induction l with
  | nil => exact List.Forall₂.nil
  | cons x l ih => exact List.Forall₂.cons (h x) ih

/-! Claim theorems: conservation and alignment through the shuffle. -/

/-- C3: for every worker count from 1 up, whenever the sort call completes, the
multiset of (key, column) rows held across all workers after the call equals
the multiset held before it: the routing loop counts every row exactly once,
the contiguous slices at the send displacements tile each local array exactly,
and the exchange plus the local sorts only rearrange rows. -/
theorem C3_conservation {α : Type} (n_pes : ℕ) (keyss : List (List ℤ))
    (datass : List (List α)) (indss : List (List ℕ)) (out : List (List (ℤ × α)))
    (hp : 1 ≤ n_pes)
    (hcols : List.Forall₂ (fun ks ds => ds.length = ks.length) keyss datass)
    (hout : par_sort_impl n_pes keyss datass indss = some out) :
    (out.flatten : Multiset (ℤ × α))
      = ((List.zipWith List.zip keyss datass).flatten : Multiset (ℤ × α)) := by
  rw [Multiset.coe_eq_coe]
  have hAB : List.Forall₂ (fun (x : List ℤ) (y : List α) => x.length = y.length)
      keyss datass := hcols.imp (fun a b h => h.symm)
  rcases hbb : computeBounds n_pes
      (((keyss.zip indss).map (fun p => sampleOf p.1 p.2)).flatten) with _ | bounds
  · rw [par_sort_impl, parallel_sort_none n_pes keyss datass indss hbb] at hout
    exact absurd hout (by simp)
  · have hblen : bounds.length + 1 = n_pes := by
      have := computeBounds_length _ _ _ hbb
      omega
    rw [par_sort_impl, parallel_sort_eq n_pes keyss datass indss bounds hbb] at hout
    have hout2 : ((alltoallv_run n_pes (keyss.map (fun k => send_counts n_pes bounds k)) keyss).zip
        (alltoallv_run n_pes (keyss.map (fun k => send_counts n_pes bounds k)) datass)).map
          (fun p => local_sort (p.1.zip p.2)) = out := by
      exact Option.some.inj hout
    rw [← hout2]
    rw [alltoallv_run, alltoallv_run, List.zip_map', List.map_map]
    have hfun : ((fun p : List ℤ × List α => local_sort (p.1.zip p.2)) ∘ fun d =>
          (recvBuf (keyss.map (fun k => send_counts n_pes bounds k)) keyss d,
           recvBuf (keyss.map (fun k => send_counts n_pes bounds k)) datass d))
        = fun d => local_sort
            (recvBuf (keyss.map (fun k => send_counts n_pes bounds k))
              (List.zipWith List.zip keyss datass) d) := by
      funext d
      simp only [Function.comp]
      rw [recvBuf_zip _ _ _ _ hAB]
    rw [hfun]
    rw [show (fun d => local_sort
          (recvBuf (keyss.map (fun k => send_counts n_pes bounds k))
            (List.zipWith List.zip keyss datass) d))
        = local_sort ∘ (fun d =>
            recvBuf (keyss.map (fun k => send_counts n_pes bounds k))
              (List.zipWith List.zip keyss datass) d) from rfl]
    rw [← List.map_map]
    exact (flatten_map_local_sort _).trans
      (recv_perm n_pes _ _ (counts_forall₂ n_pes bounds hblen keyss datass hcols))

/-- Witness for C3: two workers, keys [9,1] and [4] with id columns [10,11] and
[12]; the rows after the call are a permutation of the rows before. -/
theorem C3_conservation_witness :
    (([[((4:ℤ), (12:ℤ))], [(1, 11), (9, 10)]] : List (List (ℤ × ℤ))).flatten
        : Multiset (ℤ × ℤ))
      = ((List.zipWith List.zip [[(9:ℤ), 1], [4]] [[(10:ℤ), 11], [12]]).flatten
        : Multiset (ℤ × ℤ)) :=
  C3_conservation 2 [[9, 1], [4]] [[10, 11], [12]] [[0, 1], [0]]
    [[(4, 12)], [(1, 11), (9, 10)]] (by omega)
    (List.Forall₂.cons rfl (List.Forall₂.cons rfl List.Forall₂.nil)) (by decide)

/-- C4: the data columns travel with the identical counts and displacements as
the key array (source lines 322-325), so each worker's received key buffer and
received data buffer have the same length and, row for row, the pair they form
is one of the original (key, column) records. -/
theorem C4_alignment {α : Type} (n_pes : ℕ) (keyss : List (List ℤ))
    (datass : List (List α)) (indss : List (List ℕ)) (outK : List (List ℤ))
    (outD : List (List α))
    (hcols : List.Forall₂ (fun ks ds => ds.length = ks.length) keyss datass)
    (hout : parallel_sort n_pes keyss datass indss = some (outK, outD)) :
    List.Forall₂ (fun ok od => od.length = ok.length) outK outD ∧
    ∀ d : ℕ, ∀ p ∈ (outK.getD d []).zip (outD.getD d []),
      p ∈ (List.zipWith List.zip keyss datass).flatten := by
  have hAB : List.Forall₂ (fun (x : List ℤ) (y : List α) => x.length = y.length)
      keyss datass := hcols.imp (fun a b h => h.symm)
  rcases hbb : computeBounds n_pes
      (((keyss.zip indss).map (fun p => sampleOf p.1 p.2)).flatten) with _ | bounds
  · rw [parallel_sort_none n_pes keyss datass indss hbb] at hout
    exact absurd hout (by simp)
  · rw [parallel_sort_eq n_pes keyss datass indss bounds hbb] at hout
    have hpair := Option.some.inj hout
    have hK : alltoallv_run n_pes (keyss.map (fun k => send_counts n_pes bounds k)) keyss
        = outK := congrArg Prod.fst hpair
    have hD : alltoallv_run n_pes (keyss.map (fun k => send_counts n_pes bounds k)) datass
        = outD := congrArg Prod.snd hpair
    rw [← hK, ← hD]
    constructor
    · rw [alltoallv_run, alltoallv_run]
      refine forall₂_map_of_forall _ _ _ _ ?_
      intro d
      exact (recvBuf_length_eq _ _ _ d hAB).symm
    · intro d p hp
      rw [alltoallv_run, alltoallv_run] at hp
      by_cases hd : d < n_pes
      · rw [getD_map_range _ _ _ _ hd, getD_map_range _ _ _ _ hd,
          recvBuf_zip _ _ _ _ hAB] at hp
        exact mem_recvBuf _ _ d p hp
      · rw [List.getD_eq_default _ _ (by simpa using Nat.le_of_not_lt hd)] at hp
        simp at hp

/-- Witness for C4 at the two-worker input with keys [9,1], [4] and id columns
[10,11], [12]. -/
theorem C4_alignment_witness :
    List.Forall₂ (fun (ok : List ℤ) (od : List ℤ) => od.length = ok.length)
      [[4], [9, 1]] [[12], [10, 11]] ∧
    ∀ d : ℕ, ∀ p ∈ (([[4], [9, 1]] : List (List ℤ)).getD d []).zip
        (([[12], [10, 11]] : List (List ℤ)).getD d []),
      p ∈ (List.zipWith List.zip [[(9:ℤ), 1], [4]] [[(10:ℤ), 11], [12]]).flatten :=
  C4_alignment 2 [[9, 1], [4]] [[10, 11], [12]] [[0, 1], [0]] [[4], [9, 1]]
    [[12], [10, 11]]
    (List.Forall₂.cons rfl (List.Forall₂.cons rfl List.Forall₂.nil)) (by decide)

/-! The global-order counterexample. -/

lemma fraction_two_three : fraction 2 3 = 1 := by
  unfold fraction sampleSize samplePointsPerPartitionHint MIN_SAMPLES
  rw [min_def]
  norm_num

lemma validSample_w0 : validSample 2 3 [9, 1] [0, 1] := by
  constructor
  · show (2 : ℕ) = n_loc_samples 2 3 2
    unfold n_loc_samples
    rw [fraction_two_three]
    norm_num
    decide
  · decide

lemma validSample_w1 : validSample 2 3 [4] [0] := by
  constructor
  · show (1 : ℕ) = n_loc_samples 2 3 1
    unfold n_loc_samples
    rw [fraction_two_three]
    norm_num
  · decide

/-- C2: the claim says the rank-order concatenation of the per-worker results is
always non-decreasing.  The code violates it: with two workers holding keys
[9, 1] (ids [10, 11]) and [4] (id [12]), total rows 3, and an admissible random
draw (sizes follow the sampler formula, indices in range), the samples are
[9, 1] and [4], the broadcast boundary is [9], and the forward-only routing
sends keys 9 and 1 to worker 1 and key 4 to worker 0; after the local sorts the
global sequence reads 4, 1, 9, which is not non-decreasing. -/
theorem C2_global_order_divergence :
    validSample 2 3 [9, 1] [0, 1] ∧ validSample 2 3 [4] [0] ∧
    par_sort_impl 2 [[9, 1], [4]] [[(10:ℤ), 11], [12]] [[0, 1], [0]] =
      some [[((4:ℤ), (12:ℤ))], [(1, 11), (9, 10)]] ∧
    ((([[((4:ℤ), (12:ℤ))], [(1, 11), (9, 10)]] : List (List (ℤ × ℤ))).map
        (List.map Prod.fst)).flatten = [4, 1, 9]) ∧
    ¬ List.Pairwise (· ≤ ·) ([4, 1, 9] : List ℤ) :=
  ⟨validSample_w0, validSample_w1, by decide, rfl,
   fun h => absurd ((List.pairwise_cons.mp h).1 1 (by simp)) (by decide)⟩

end HiframesSort
